import Mathlib

/-!
Verification of the interval-forest regression engine of the `aeon` repository.

The repository files under verification:
  * `aeon/regression/interval_based/_cif.py` (`CanonicalIntervalForestRegressor`)
  * `aeon/regression/compose/_ensemble.py` (`RegressorEnsemble`)
  * `aeon/regression/compose/_pipeline.py` (`RegressorPipeline`)

`CanonicalIntervalForestRegressor` is a thin subclass of `BaseIntervalForest`
(the interval sampler, attribute subsampler, feature extractor and forest
orchestrator live there); that base class is not part of the source tree under
verification, so the engine components are modelled from the specification
(each such definition carries a doc comment starting `Modelled from the spec:`).
Constructor defaults, the docstring-stated defaults and the configuration
forwarded by `CanonicalIntervalForestRegressor.__init__`, as well as
`RegressorEnsemble._predict`, are embedded directly from the source.
-/

namespace Aeon

/-- An interval specification: `{channel, start, length}` (spec §3,
`IntervalSpec`).  Machine integers of the source are modelled as `Nat`
(they are indices and sizes, always non-negative in the source). -/
structure IntervalSpec where
  channel : Nat
  start : Nat
  length : Nat
deriving Repr, DecidableEq

/-- Modelled from the spec: the explicit deterministic random generator
(spec §9: an explicit generator object seeded deterministically, standing in
for `np.random.RandomState`).  A linear congruential step on a `Nat` state;
its exact constants are irrelevant to every claim, which quantify over all
states. -/
def rngNext (s : Nat) : Nat := (s * 1103515245 + 12345) % 2147483648

/-- Modelled from the spec: one uniform draw below a bound, returning the
drawn value and the advanced generator state.  A zero bound yields 0 (the
sampler never requests a draw with a zero bound on valid input). -/
def randBelow (s k : Nat) : Nat × Nat :=
  let s1 := rngNext s
  (if k = 0 then 0 else s1 % k, s1)

/-- Modelled from the spec (§4.1): the lower end of the admissible length
range, "[min_len, max_len] clipped to [1, n_timepoints]"; collapsing onto
the clipped upper end when the clipped range would be empty, which realises
the §4.1 failure policy "if min_len > n_timepoints, clip length to
n_timepoints ... rather than raising". -/
def clipLo (minL maxL nT : Nat) : Nat := min (max 1 minL) (min maxL nT)

/-- Modelled from the spec (§4.1): the upper end of the admissible length
range, "[min_len, max_len] clipped to [1, n_timepoints]". -/
def clipHi (maxL nT : Nat) : Nat := min maxL nT

/-- Modelled from the spec (§4.1, Interval Sampler; the sampling code of
`BaseIntervalForest` is not under the source tree): one interval draw.
"draw channel uniformly from [0, n_channels); draw length uniformly from
[min_len, max_len] clipped to [1, n_timepoints]; draw start uniformly from
[0, n_timepoints - length]". -/
def sampleInterval (nT nCh minL maxL : Nat) (s : Nat) : IntervalSpec × Nat :=
  let p1 := randBelow s nCh
  let p2 := randBelow p1.2 (clipHi maxL nT - clipLo minL maxL nT + 1)
  let len := clipLo minL maxL nT + p2.1
  let p3 := randBelow p2.2 (nT - len + 1)
  ({ channel := p1.1, start := p3.1, length := len }, p3.2)

/-- Modelled from the spec (§4.1): sample `count` intervals, threading the
generator state through successive draws. -/
def sampleIntervals (nT nCh minL maxL : Nat) : Nat → Nat → List IntervalSpec
  | 0, _ => []
  | k + 1, s =>
    let p := sampleInterval nT nCh minL maxL s
    p.1 :: sampleIntervals nT nCh minL maxL k p.2

theorem randBelow_lt (s k : Nat) (hk : 0 < k) : (randBelow s k).1 < k := by
  simp only [randBelow]
  rw [if_neg (Nat.pos_iff_ne_zero.mp hk)]
  exact Nat.mod_lt _ hk

theorem clipLo_le_clipHi (minL maxL nT : Nat) :
    clipLo minL maxL nT ≤ clipHi maxL nT := Nat.min_le_right _ _

theorem le_clipLo (minL maxL nT : Nat) (hmm : minL ≤ maxL) (hMn : maxL ≤ nT) :
    minL ≤ clipLo minL maxL nT :=
  le_min (le_max_right 1 minL) (le_min hmm (hmm.trans hMn))

/-- Bounds satisfied by every single sampled interval. -/
theorem sampleInterval_bounds (nT nCh minL maxL s : Nat)
    (hmm : minL ≤ maxL) (hMn : maxL ≤ nT) :
    (sampleInterval nT nCh minL maxL s).1.start
        + (sampleInterval nT nCh minL maxL s).1.length ≤ nT ∧
    minL ≤ (sampleInterval nT nCh minL maxL s).1.length ∧
    (sampleInterval nT nCh minL maxL s).1.length ≤ maxL := by
  have hlohi := clipLo_le_clipHi minL maxL nT
  have hlo := le_clipLo minL maxL nT hmm hMn
  have hhiM : clipHi maxL nT ≤ maxL := Nat.min_le_left _ _
  have hhin : clipHi maxL nT ≤ nT := Nat.min_le_right _ _
  simp only [sampleInterval]
  set a := clipLo minL maxL nT
  set b := clipHi maxL nT
  have hdl := randBelow_lt (randBelow s nCh).2 (b - a + 1) (Nat.succ_pos _)
  set dl := (randBelow (randBelow s nCh).2 (b - a + 1)).1
  have hlen : a + dl ≤ b := by omega
  have hst := randBelow_lt (randBelow (randBelow s nCh).2 (b - a + 1)).2
    (nT - (a + dl) + 1) (Nat.succ_pos _)
  refine ⟨by omega, by omega, by omega⟩

/-- Degenerate-case shape of a single sampled interval when the resolved
minimum length exceeds the series length. -/
theorem sampleInterval_degenerate (nT nCh minL maxL s : Nat)
    (hgt : nT < minL) (hmm : minL ≤ maxL) :
    (sampleInterval nT nCh minL maxL s).1.length = nT ∧
    (sampleInterval nT nCh minL maxL s).1.start = 0 := by
  have hhi : clipHi maxL nT = nT := Nat.min_eq_right ((Nat.le_of_lt hgt).trans hmm)
  have hlo : clipLo minL maxL nT = nT := by
    have h1 : nT ≤ max 1 minL := (Nat.le_of_lt hgt).trans (Nat.le_max_right 1 minL)
    simp only [clipLo, clipHi] at *
    omega
  simp only [sampleInterval, hhi, hlo]
  have hdl := randBelow_lt (randBelow s nCh).2 (nT - nT + 1) (Nat.succ_pos _)
  have hdl0 : (randBelow (randBelow s nCh).2 (nT - nT + 1)).1 = 0 := by omega
  have hst := randBelow_lt (randBelow (randBelow s nCh).2 (nT - nT + 1)).2
    (nT - (nT + (randBelow (randBelow s nCh).2 (nT - nT + 1)).1) + 1) (Nat.succ_pos _)
  exact ⟨by omega, by omega⟩

/-- C1: every interval produced by a `sampleIntervals` run under resolved
bounds `minL ≤ maxL ≤ nT` stays inside the series and inside the length
bounds. -/
theorem sampleIntervals_mem_bounds (nT nCh minL maxL : Nat)
    (hmm : minL ≤ maxL) (hMn : maxL ≤ nT) :
    ∀ (count s : Nat), ∀ iv ∈ sampleIntervals nT nCh minL maxL count s,
      0 ≤ iv.start ∧ iv.start + iv.length ≤ nT ∧
      minL ≤ iv.length ∧ iv.length ≤ maxL := by
  intro count
  induction count with
  | zero => intro s iv hiv; simp [sampleIntervals] at hiv
  | succ k ih =>
    intro s iv hiv
    simp only [sampleIntervals, List.mem_cons] at hiv
    rcases hiv with h | h
    · subst h
      have hb := sampleInterval_bounds nT nCh minL maxL s hmm hMn
      exact ⟨Nat.zero_le _, hb.1, hb.2.1, hb.2.2⟩
    · exact ih _ iv h

theorem sampleIntervals_degenerate (nT nCh minL maxL : Nat)
    (hgt : nT < minL) (hmm : minL ≤ maxL) :
    ∀ (count s : Nat), ∀ iv ∈ sampleIntervals nT nCh minL maxL count s,
      iv.length = nT ∧ iv.start = 0 := by
  intro count
  induction count with
  | zero => intro s iv hiv; simp [sampleIntervals] at hiv
  | succ k ih =>
    intro s iv hiv
    simp only [sampleIntervals, List.mem_cons] at hiv
    rcases hiv with h | h
    · subst h
      exact sampleInterval_degenerate nT nCh minL maxL s hgt hmm
    · exact ih _ iv h

/-- C1: for every fit call with resolved bounds `min_interval_length ≤
max_interval_length ≤ n_timepoints`, every `IntervalSpec` produced by the
interval sampler satisfies `start ≥ 0`, `start + length ≤ n_timepoints`, and
`min_interval_length ≤ length ≤ max_interval_length`. -/
theorem C1_sampled_intervals_within_bounds (nT nCh minL maxL count s : Nat)
    (hmm : minL ≤ maxL) (hMn : maxL ≤ nT) :
    ∀ iv ∈ sampleIntervals nT nCh minL maxL count s,
      0 ≤ iv.start ∧ iv.start + iv.length ≤ nT ∧
      minL ≤ iv.length ∧ iv.length ≤ maxL :=
  sampleIntervals_mem_bounds nT nCh minL maxL hmm hMn count s

theorem C1_sampled_intervals_within_bounds_witness :
    (3 ≤ 6 ∧ 6 ≤ 10) ∧
    ∀ iv ∈ sampleIntervals 10 2 3 6 4 12345,
      0 ≤ iv.start ∧ iv.start + iv.length ≤ 10 ∧
      3 ≤ iv.length ∧ iv.length ≤ 6 :=
  ⟨⟨by decide, by decide⟩,
    C1_sampled_intervals_within_bounds 10 2 3 6 4 12345 (by decide) (by decide)⟩

/-- C8: for every sampling call where the resolved minimum length exceeds
`n_timepoints`, the interval sampler does not raise (it is a total
function): it clips the interval length to `n_timepoints`, producing a
degenerate full-series interval starting at 0. -/
theorem C8_min_length_exceeding_series_clips (nT nCh minL maxL count s : Nat)
    (hgt : nT < minL) (hmm : minL ≤ maxL) :
    ∀ iv ∈ sampleIntervals nT nCh minL maxL count s,
      iv.length = nT ∧ iv.start = 0 :=
  sampleIntervals_degenerate nT nCh minL maxL hgt hmm count s

theorem C8_min_length_exceeding_series_clips_witness :
    (5 < 7 ∧ 7 ≤ 9) ∧
    ∀ iv ∈ sampleIntervals 5 3 7 9 3 999,
      iv.length = 5 ∧ iv.start = 0 :=
  ⟨⟨by decide, by decide⟩,
    C8_min_length_exceeding_series_clips 5 3 7 9 3 999 (by decide) (by decide)⟩

/-! Count-specification resolution (spec §4.1): `count_spec` resolves to an
integer number of intervals. -/

/-- A single `n_intervals` entry: a literal integer, `"sqrt"`, or
`"sqrt-div"` (source `_cif.py` docstring, lines 36-45). -/
inductive CountEntry where
  | lit (k : Nat)
  | sqrt
  | sqrtDiv
deriving Repr, DecidableEq

/-- An `n_intervals` specification: a single entry, or a list/tuple of
entries whose resolutions are summed. -/
inductive CountSpec where
  | single (e : CountEntry)
  | many (es : List CountEntry)
deriving Repr, DecidableEq

/-- Executable nearest-integer of `sqrt(n) / d` over the naturals:
`round (sqrt n / d) = floor ((2 * sqrt n + d) / (2 * d))`, computed through
`Nat.sqrt (4 * n) = floor (2 * sqrt n)`. -/
def roundSqrtDiv (n d : Nat) : Nat := (Nat.sqrt (4 * n) + d) / (2 * d)

/-- Modelled from the spec (§4.1; the resolution code of
`BaseIntervalForest` is not under the source tree): one entry of
`count_spec` resolves as: literal integer to itself; `"sqrt"` to
`round(sqrt(n_timepoints))`; `"sqrt-div"` to
`round(sqrt(n_timepoints) / n_series_representations)`. -/
def resolveCountEntry (nT nReps : Nat) : CountEntry → Nat
  | .lit k => k
  | .sqrt => roundSqrtDiv nT 1
  | .sqrtDiv => roundSqrtDiv nT nReps

/-- Modelled from the spec (§4.1): a list/tuple `count_spec` is resolved by
summing the resolutions of its entries. -/
def resolveCount (nT nReps : Nat) : CountSpec → Nat
  | .single e => resolveCountEntry nT nReps e
  | .many es => (es.map (resolveCountEntry nT nReps)).sum

theorem sqrt_four_mul_nat (n : Nat) :
    Real.sqrt ((4 * n : Nat) : ℝ) = 2 * Real.sqrt n := by
  have hc : ((4 * n : Nat) : ℝ) = 2 ^ 2 * (n : ℝ) := by push_cast; ring
  rw [hc, Real.sqrt_mul (by positivity), Real.sqrt_sq (by norm_num)]

/-- The executable `roundSqrtDiv` agrees with real-number rounding of
`sqrt n / d`. -/
theorem roundSqrtDiv_eq_round (n d : Nat) (hd : 0 < d) :
    (roundSqrtDiv n d : ℤ) = round (Real.sqrt n / d) := by
  have hd0 : (0 : ℝ) < d := by exact_mod_cast hd
  have h2d : (0 : ℝ) < 2 * d := by linarith
  simp only [roundSqrtDiv]
  set t := Nat.sqrt (4 * n) with htdef
  set q := (t + d) / (2 * d) with hqdef
  have hdm : 2 * d * q + (t + d) % (2 * d) = t + d := Nat.div_add_mod (t + d) (2 * d)
  have hr : (t + d) % (2 * d) < 2 * d := Nat.mod_lt _ (by omega)
  have hq1 : 2 * d * q ≤ t + d := Nat.le.intro hdm
  have hq2 : t + d + 1 ≤ 2 * d * (q + 1) := by
    have : t + d < 2 * d * (q + 1) := by
      calc t + d = 2 * d * q + (t + d) % (2 * d) := hdm.symm
      _ < 2 * d * q + 2 * d := Nat.add_lt_add_left hr _
      _ = 2 * d * (q + 1) := by ring
    omega
  have htle : (t : ℝ) ≤ 2 * Real.sqrt n := by
    have h := Real.nat_sqrt_le_real_sqrt (a := 4 * n)
    rw [sqrt_four_mul_nat, ← htdef] at h
    exact h
  have htlt : 2 * Real.sqrt n < (t : ℝ) + 1 := by
    have h := Real.real_sqrt_lt_nat_sqrt_succ (a := 4 * n)
    rw [sqrt_four_mul_nat, ← htdef] at h
    exact h
  have hq1R : 2 * (d : ℝ) * q ≤ (t : ℝ) + d := by exact_mod_cast hq1
  have hq2R : (t : ℝ) + d + 1 ≤ 2 * (d : ℝ) * (q + 1) := by exact_mod_cast hq2
  have harg : Real.sqrt n / d + 1 / 2 = (2 * Real.sqrt n + d) / (2 * d) := by
    field_simp
    ring
  rw [round_eq, harg]
  symm
  rw [Int.floor_eq_iff]
  constructor
  · rw [le_div_iff₀ h2d]
    push_cast
    linarith
  · rw [div_lt_iff₀ h2d]
    push_cast
    linarith

/-- C6: the interval-count specification resolves to an integer as
follows: a literal integer resolves to itself; `"sqrt"` resolves to
`round(sqrt(n_timepoints))`; `"sqrt-div"` resolves to
`round(sqrt(n_timepoints) / n_series_representations)`; and a list of such
entries resolves to the sum of the entries' resolutions. -/
theorem C6_count_spec_resolution (nT nReps k : Nat) (es : List CountEntry)
    (hreps : 0 < nReps) :
    resolveCount nT nReps (.single (.lit k)) = k ∧
    (resolveCount nT nReps (.single .sqrt) : ℤ) = round (Real.sqrt nT) ∧
    (resolveCount nT nReps (.single .sqrtDiv) : ℤ)
        = round (Real.sqrt nT / nReps) ∧
    resolveCount nT nReps (.many es)
        = (es.map (fun e => resolveCount nT nReps (.single e))).sum := by
  refine ⟨rfl, ?_, ?_, rfl⟩
  · have h := roundSqrtDiv_eq_round nT 1 Nat.one_pos
    simpa using h
  · exact roundSqrtDiv_eq_round nT nReps hreps

theorem C6_count_spec_resolution_witness :
    0 < 2 ∧
    (resolveCount 12 2 (.single (.lit 5)) = 5 ∧
     (resolveCount 12 2 (.single .sqrt) : ℤ) = round (Real.sqrt 12) ∧
     (resolveCount 12 2 (.single .sqrtDiv) : ℤ) = round (Real.sqrt 12 / 2) ∧
     resolveCount 12 2 (.many [.lit 4, .sqrt])
        = ([CountEntry.lit 4, CountEntry.sqrt].map
            (fun e => resolveCount 12 2 (.single e))).sum) :=
  ⟨by decide, by
    have h := C6_count_spec_resolution 12 2 5 [.lit 4, .sqrt] (by decide)
    simpa using h⟩

/-! Attribute subsampling (spec §4.2) and the configuration embedded from
`CanonicalIntervalForestRegressor.__init__`. -/

/-- Modelled from the spec (§4.2; the subsampling code of
`BaseIntervalForest` is not under the source tree): draw `k` elements
without replacement from a pool, threading the generator state.  Each draw
removes the chosen element from the pool. -/
def drawWithoutRepl {α : Type} : Nat → List α → Nat → List α × Nat
  | 0, _, s => ([], s)
  | _ + 1, [], s => ([], s)
  | k + 1, x :: xs, s =>
    let p := randBelow s (x :: xs).length
    let y := (x :: xs).getD p.1 x
    let rest := (x :: xs).take p.1 ++ (x :: xs).drop (p.1 + 1)
    let r := drawWithoutRepl k rest p.2
    (y :: r.1, r.2)

/-- An `att_subsample_size` value: an integer count or a float proportion
(`_cif.py` docstring, lines 55-60); `None` is modelled by `Option`. -/
inductive AttSubsampleSize where
  | count (k : Nat)
  | prop (p : ℚ)
deriving Repr, DecidableEq

/-- Modelled from the spec (§4.2, Attribute Subsampler): `None` keeps all
attributes in registration order; integer `k` draws `k` attributes without
replacement; float `p` draws `round(p * |full|)` attributes, minimum 1. -/
def subsampleAttrs {α : Type} (full : List α) (spec : Option AttSubsampleSize)
    (s : Nat) : List α × Nat :=
  match spec with
  | none => (full, s)
  | some (.count k) => drawWithoutRepl k full s
  | some (.prop p) =>
      drawWithoutRepl (max 1 (round (p * full.length)).toNat) full s

theorem drawWithoutRepl_length {α : Type} :
    ∀ (k : Nat) (pool : List α) (s : Nat), k ≤ pool.length →
      ((drawWithoutRepl k pool s).1).length = k := by
  intro k
  induction k with
  | zero => intro pool s _; rfl
  | succ k ih =>
    intro pool s hk
    match pool with
    | [] => exact absurd hk (by simp)
    | x :: xs =>
      have hidx := randBelow_lt s (x :: xs).length (by simp)
      simp only [List.length_cons] at hidx hk
      simp only [drawWithoutRepl, List.length_cons]
      rw [ih _ _ ?_]
      rw [List.length_append, List.length_take, List.length_drop]
      simp only [List.length_cons]
      omega

/-- The resolved per-estimator configuration of
`CanonicalIntervalForestRegressor`: the constructor parameters
(`_cif.py` lines 132-146) together with the fixed values its `__init__`
forwards to `BaseIntervalForest.__init__` (lines 156-172), in particular
`replace_nan=0` (line 166).  `max_interval_length = none` models `np.inf`;
`time_limit_in_minutes = none` models Python `None`. -/
structure CIFConfig where
  n_estimators : Nat
  n_intervals : CountSpec
  min_interval_length : Nat
  max_interval_length : Option Nat
  att_subsample_size : Option AttSubsampleSize
  replace_nan : ℚ
  time_limit_in_minutes : Option Nat
  contract_max_n_estimators : Nat
  n_jobs : Int
deriving Repr, DecidableEq

/-- The default-argument configuration of
`CanonicalIntervalForestRegressor.__init__` (`_cif.py` lines 132-146):
`n_estimators=200`, `n_intervals="sqrt"`, `min_interval_length=3`,
`max_interval_length=np.inf`, `att_subsample_size=8`,
`time_limit_in_minutes=None`, `contract_max_n_estimators=500`, `n_jobs=1`,
and the forwarded `replace_nan=0` (line 166). -/
def cifRegressorDefaults : CIFConfig where
  n_estimators := 200
  n_intervals := .single .sqrt
  min_interval_length := 3
  max_interval_length := none
  att_subsample_size := some (.count 8)
  replace_nan := 0
  time_limit_in_minutes := none
  contract_max_n_estimators := 500
  n_jobs := 1

/-- The default for `att_subsample_size` stated by the class docstring
(`_cif.py` lines 55-57): "default=``None``; If ``None``, all attributes
are used." -/
def cifDocstringAttSubsampleDefault : Option AttSubsampleSize := none

/-- The number of registered attributes for CIF: the `Catch22` transform
contributes 22 features, plus `row_mean`, `row_std`, `row_slope`
(`_cif.py` lines 149-154). -/
def cifNumAttributes : Nat := 22 + 3

/-- C9: constructing `CanonicalIntervalForestRegressor` with no arguments
yields `att_subsample_size = 8`, so by default each tree subsamples exactly
8 attributes rather than using all registered attributes — even though the
class docstring states the default is `None` (all attributes used). -/
theorem C9_default_att_subsample_size (full : List Nat) (s : Nat)
    (hfull : full.length = cifNumAttributes) :
    cifRegressorDefaults.att_subsample_size = some (.count 8) ∧
    cifRegressorDefaults.att_subsample_size ≠ cifDocstringAttSubsampleDefault ∧
    ((subsampleAttrs full cifRegressorDefaults.att_subsample_size s).1).length = 8 ∧
    subsampleAttrs full cifDocstringAttSubsampleDefault s = (full, s) := by
  refine ⟨rfl, by simp [cifRegressorDefaults, cifDocstringAttSubsampleDefault], ?_, rfl⟩
  have h8 : (8 : Nat) ≤ full.length := by
    rw [hfull]; decide
  exact drawWithoutRepl_length 8 full s h8

theorem C9_default_att_subsample_size_witness :
    (List.range 25).length = cifNumAttributes ∧
    (cifRegressorDefaults.att_subsample_size = some (.count 8) ∧
     cifRegressorDefaults.att_subsample_size ≠ cifDocstringAttSubsampleDefault ∧
     ((subsampleAttrs (List.range 25) cifRegressorDefaults.att_subsample_size 7).1).length = 8 ∧
     subsampleAttrs (List.range 25) cifDocstringAttSubsampleDefault 7
        = (List.range 25, 7)) :=
  ⟨by decide, C9_default_att_subsample_size (List.range 25) 7 (by decide)⟩

/-! Interval feature extraction (spec §4.3). -/

/-- A feature value as produced by a feature function: a finite numeric
value, or a non-finite IEEE result (`NaN`, `+Inf`, `-Inf`).  Finite float
arithmetic is modelled over `ℚ`. -/
inductive FVal where
  | fin (q : ℚ)
  | nan
  | posInf
  | negInf
deriving Repr, DecidableEq

/-- Whether a feature value is finite. -/
def FVal.isFinite : FVal → Bool
  | .fin _ => true
  | _ => false

/-- Modelled from the spec (§4.3): non-finite results are replaced with the
configured `replace_nan` scalar immediately after each function call. -/
def sanitize (replaceNan : ℚ) : FVal → ℚ
  | .fin q => q
  | _ => replaceNan

/-- One input case: a list of channels, each a list of timepoints. -/
abbrev Case : Type := List (List ℚ)

/-- A series batch: an ordered collection of cases (spec §3). -/
abbrev SeriesBatch : Type := List Case

/-- A feature function: a pure map from a series slice to a scalar,
possibly non-finite (spec §6, feature-function registry). -/
abbrev Feature : Type := List ℚ → FVal

/-- Modelled from the spec (§4.3): the slice
`series[case, channel, start:start+length]`. -/
def sliceCase (c : Case) (iv : IntervalSpec) : List ℚ :=
  ((c.getD iv.channel []).drop iv.start).take iv.length

/-- Modelled from the spec (§4.3, Interval Feature Extractor; the
extraction code of `BaseIntervalForest` is not under the source tree): one
feature row per case — intervals outer, attributes inner, each raw value
sanitized immediately after the feature-function call. -/
def extractRow (replaceNan : ℚ) (ivs : List IntervalSpec) (attrs : List Feature)
    (c : Case) : List ℚ :=
  (ivs.map (fun iv => attrs.map (fun f => sanitize replaceNan (f (sliceCase c iv))))).flatten

/-- Modelled from the spec (§4.3): the `FeatureTable` — one row per case of
the batch. -/
def extractTable (replaceNan : ℚ) (ivs : List IntervalSpec) (attrs : List Feature)
    (X : SeriesBatch) : List (List ℚ) :=
  X.map (extractRow replaceNan ivs attrs)

theorem flatten_map_map_getElem {α β γ : Type} (m : List β) (g : α → β → γ) :
    ∀ (l : List α) (i a : Nat) (hi : i < l.length) (ha : a < m.length),
      ((l.map fun x => m.map (g x)).flatten)[i * m.length + a]? =
        some (g (l.get ⟨i, hi⟩) (m.get ⟨a, ha⟩)) := by
  intro l
  induction l with
  | nil => intro i a hi ha; exact absurd hi (Nat.not_lt_zero i)
  | cons x xs ih =>
    intro i a hi ha
    match i with
    | 0 =>
      simp only [List.map_cons, List.flatten_cons, Nat.zero_mul, Nat.zero_add]
      rw [List.getElem?_append, if_pos (by simp [ha])]
      rw [List.getElem?_map, List.getElem?_eq_getElem ha]
      rfl
    | i + 1 =>
      have hidx : (i + 1) * m.length + a = m.length + (i * m.length + a) := by ring
      simp only [List.map_cons, List.flatten_cons, hidx]
      rw [List.getElem?_append_right (by simp)]
      simp only [List.length_map, Nat.add_sub_cancel_left]
      exact ih i a (Nat.lt_of_succ_lt_succ hi) ha

theorem extractRow_length (replaceNan : ℚ) (ivs : List IntervalSpec)
    (attrs : List Feature) (c : Case) :
    (extractRow replaceNan ivs attrs c).length = ivs.length * attrs.length := by
  simp only [extractRow, List.length_flatten, List.map_map]
  induction ivs with
  | nil => simp
  | cons iv rest ih =>
    simp only [List.map_cons, List.sum_cons, ih, List.length_map,
      Function.comp_apply, List.length_cons]
    ring

theorem extractRow_cell (replaceNan : ℚ) (ivs : List IntervalSpec)
    (attrs : List Feature) (c : Case) (i a : Nat)
    (hi : i < ivs.length) (ha : a < attrs.length) :
    (extractRow replaceNan ivs attrs c)[i * attrs.length + a]? =
      some (sanitize replaceNan
        ((attrs.get ⟨a, ha⟩) (sliceCase c (ivs.get ⟨i, hi⟩)))) := by
  simpa using flatten_map_map_getElem attrs
    (fun iv f => sanitize replaceNan (f (sliceCase c iv))) ivs i a hi ha

/-- C7: for every ensemble member, the feature table built by the extractor
has exactly `total_intervals * attributes_per_interval` columns, laid out
with intervals as the outer loop and attributes as the inner loop in
sampling/selection order; the cell formula depends only on the case, the
member's stored intervals and attributes, so the column ordering is
identical between the member's fit-time and predict-time extractions. -/
theorem C7_feature_table_layout (replaceNan : ℚ) (ivs : List IntervalSpec)
    (attrs : List Feature) (X : SeriesBatch) (i a : Nat)
    (hi : i < ivs.length) (ha : a < attrs.length) :
    (∀ row ∈ extractTable replaceNan ivs attrs X,
        row.length = ivs.length * attrs.length) ∧
    (∀ c : Case,
        (extractRow replaceNan ivs attrs c)[i * attrs.length + a]? =
          some (sanitize replaceNan
            ((attrs.get ⟨a, ha⟩) (sliceCase c (ivs.get ⟨i, hi⟩))))) := by
  constructor
  · intro row hrow
    simp only [extractTable, List.mem_map] at hrow
    obtain ⟨c, _, hc⟩ := hrow
    rw [← hc]
    exact extractRow_length replaceNan ivs attrs c
  · intro c
    exact extractRow_cell replaceNan ivs attrs c i a hi ha

/-- Concrete interval list used by witness statements. -/
def witnessIntervals : List IntervalSpec := [⟨0, 0, 2⟩, ⟨0, 1, 1⟩]

/-- Concrete attribute list used by witness statements. -/
def witnessAttrs : List Feature := [fun _ => FVal.fin 1]

/-- Concrete series batch used by witness statements. -/
def witnessBatch : SeriesBatch := [[[3, 4, 5]]]

theorem C7_feature_table_layout_witness :
    (0 < witnessIntervals.length ∧ 0 < witnessAttrs.length) ∧
    ((∀ row ∈ extractTable 0 witnessIntervals witnessAttrs witnessBatch,
        row.length = witnessIntervals.length * witnessAttrs.length) ∧
     (∀ c : Case,
        (extractRow 0 witnessIntervals witnessAttrs c)[0 * witnessAttrs.length + 0]? =
          some (sanitize 0
            ((witnessAttrs.get ⟨0, by simp [witnessAttrs]⟩)
              (sliceCase c (witnessIntervals.get ⟨0, by simp [witnessIntervals]⟩)))))) := by
  constructor
  · exact ⟨by simp [witnessIntervals], by simp [witnessAttrs]⟩
  · exact C7_feature_table_layout 0 witnessIntervals witnessAttrs witnessBatch
      0 0 (by simp [witnessIntervals]) (by simp [witnessAttrs])

/-- C3: a feature function returning `NaN` or `±Inf` on some
(case, interval) slice never causes fit or predict to raise — extraction is
a total function of its inputs — and the corresponding feature-table cell
equals the configured `replace_nan` value, which is 0 for
`CanonicalIntervalForestRegressor` (`_cif.py` line 166); the substitution
happens in the extractor itself, before the base learner sees the table. -/
theorem C3_nonfinite_replaced (ivs : List IntervalSpec) (attrs : List Feature)
    (c : Case) (i a : Nat) (hi : i < ivs.length) (ha : a < attrs.length)
    (hnf : ((attrs.get ⟨a, ha⟩) (sliceCase c (ivs.get ⟨i, hi⟩))).isFinite = false) :
    (extractRow cifRegressorDefaults.replace_nan ivs attrs c)[i * attrs.length + a]?
        = some cifRegressorDefaults.replace_nan ∧
    cifRegressorDefaults.replace_nan = 0 := by
  refine ⟨?_, rfl⟩
  rw [extractRow_cell cifRegressorDefaults.replace_nan ivs attrs c i a hi ha]
  match hv : (attrs.get ⟨a, ha⟩) (sliceCase c (ivs.get ⟨i, hi⟩)), hnf with
  | .nan, _ => rfl
  | .posInf, _ => rfl
  | .negInf, _ => rfl

theorem C3_nonfinite_replaced_witness :
    (([fun _ => FVal.nan] : List Feature).get ⟨0, by decide⟩
        (sliceCase [[(5:ℚ)]] (([⟨0, 0, 1⟩] : List IntervalSpec).get ⟨0, by decide⟩))).isFinite
      = false ∧
    ((extractRow cifRegressorDefaults.replace_nan [⟨0, 0, 1⟩]
        [fun _ => FVal.nan] [[(5:ℚ)]])[0 * 1 + 0]?
        = some cifRegressorDefaults.replace_nan ∧
      cifRegressorDefaults.replace_nan = 0) :=
  ⟨rfl, C3_nonfinite_replaced [⟨0, 0, 1⟩] [fun _ => FVal.nan] [[(5:ℚ)]] 0 0
    (by decide) (by decide) rfl⟩

/-! The weighted regressor ensemble, embedded from
`aeon/regression/compose/_ensemble.py` (`RegressorEnsemble._predict`,
lines 83-90). -/

/-- One fitted member of a `RegressorEnsemble`: its prediction function on
a batch together with its weight `weights_[reg_name]`.  In the source,
`ensemble_` is a list of `(name, regressor)` pairs and `weights_` a dict
with exactly one entry per member name; pairing each member directly with
its weight is the same data. -/
structure RegMember where
  pred : SeriesBatch → List ℚ
  weight : ℚ

/-- The loop body of `RegressorEnsemble._predict`:
`preds += reg.predict(X=X) * self.weights_[reg_name]` (line 88),
element-wise over the prediction vector. -/
def accumWeighted (X : SeriesBatch) (acc : List ℚ) (m : RegMember) : List ℚ :=
  List.zipWith (· + ·) acc ((m.pred X).map (· * m.weight))

/-- `RegressorEnsemble._predict` (`_ensemble.py` lines 83-90): start from
`np.zeros(len(X))`, accumulate each member's weighted prediction, and
divide by `np.sum(list(self.weights_.values()))`. -/
def ensemblePredict (members : List RegMember) (X : SeriesBatch) : List ℚ :=
  (members.foldl (accumWeighted X) (List.replicate X.length 0)).map
    (· / (members.map RegMember.weight).sum)

/-- Element access of a prediction vector, defaulting to 0 out of range. -/
def vGet (v : List ℚ) (i : Nat) : ℚ := (v[i]?).getD 0

theorem vGet_zipWith_add (u v : List ℚ) (i : Nat)
    (hu : i < u.length) (hv : i < v.length) :
    vGet (List.zipWith (· + ·) u v) i = vGet u i + vGet v i := by
  have hz : i < (List.zipWith (· + ·) u v).length := by
    rw [List.length_zipWith]; omega
  simp only [vGet, List.getElem?_eq_getElem hz, List.getElem?_eq_getElem hu,
    List.getElem?_eq_getElem hv, List.getElem_zipWith, Option.getD_some]

theorem vGet_map_mul (p : List ℚ) (w : ℚ) (i : Nat) (hp : i < p.length) :
    vGet (p.map (· * w)) i = vGet p i * w := by
  simp [vGet, List.getElem?_map, List.getElem?_eq_getElem hp]

theorem vGet_map_div (p : List ℚ) (w : ℚ) (i : Nat) (hp : i < p.length) :
    vGet (p.map (· / w)) i = vGet p i / w := by
  simp [vGet, List.getElem?_map, List.getElem?_eq_getElem hp]

theorem foldl_accumWeighted_length (X : SeriesBatch) :
    ∀ (l : List RegMember) (acc : List ℚ),
      (∀ m ∈ l, (m.pred X).length = X.length) → acc.length = X.length →
      (l.foldl (accumWeighted X) acc).length = X.length := by
  intro l
  induction l with
  | nil => intro acc _ hacc; exact hacc
  | cons m l ih =>
    intro acc hl hacc
    simp only [List.foldl_cons]
    refine ih _ (fun x hx => hl x (List.mem_cons_of_mem m hx)) ?_
    simp only [accumWeighted, List.length_zipWith, List.length_map]
    rw [hacc, hl m (List.mem_cons_self m l)]
    omega

theorem foldl_accumWeighted_vGet (X : SeriesBatch) :
    ∀ (l : List RegMember) (acc : List ℚ) (i : Nat),
      (∀ m ∈ l, (m.pred X).length = X.length) → acc.length = X.length →
      i < X.length →
      vGet (l.foldl (accumWeighted X) acc) i
        = vGet acc i + (l.map (fun m => vGet (m.pred X) i * m.weight)).sum := by
  intro l
  induction l with
  | nil => intro acc i _ _ _; simp
  | cons m l ih =>
    intro acc i hl hacc hi
    simp only [List.foldl_cons, List.map_cons, List.sum_cons]
    have hm : (m.pred X).length = X.length := hl m (List.mem_cons_self m l)
    have hacc2 : (accumWeighted X acc m).length = X.length := by
      simp only [accumWeighted, List.length_zipWith, List.length_map]
      rw [hacc, hm]; omega
    rw [ih (accumWeighted X acc m) i
      (fun x hx => hl x (List.mem_cons_of_mem m hx)) hacc2 hi]
    have hstep : vGet (accumWeighted X acc m) i = vGet acc i + vGet (m.pred X) i * m.weight := by
      rw [accumWeighted, vGet_zipWith_add _ _ i (by omega)
        (by rw [List.length_map, hm]; omega)]
      rw [vGet_map_mul _ _ i (by omega)]
    rw [hstep]
    ring

theorem ensemblePredict_length (members : List RegMember) (X : SeriesBatch)
    (hlen : ∀ m ∈ members, (m.pred X).length = X.length) :
    (ensemblePredict members X).length = X.length := by
  simp only [ensemblePredict, List.length_map]
  exact foldl_accumWeighted_length X members _ hlen (List.length_replicate _ _)

theorem ensemblePredict_vGet (members : List RegMember) (X : SeriesBatch)
    (i : Nat) (hlen : ∀ m ∈ members, (m.pred X).length = X.length)
    (hi : i < X.length) :
    vGet (ensemblePredict members X) i
      = (members.map (fun m => vGet (m.pred X) i * m.weight)).sum
          / (members.map RegMember.weight).sum := by
  have hfl := foldl_accumWeighted_length X members
    (List.replicate X.length 0) hlen (List.length_replicate _ _)
  have hfi : i < (members.foldl (accumWeighted X) (List.replicate X.length 0)).length := by
    omega
  have hv := foldl_accumWeighted_vGet X members
    (List.replicate X.length 0) i hlen (List.length_replicate _ _) hi
  have hz : vGet (List.replicate X.length (0:ℚ)) i = 0 := by
    simp [vGet, List.getElem?_replicate, hi]
  rw [hz, zero_add] at hv
  unfold ensemblePredict
  rw [vGet_map_div _ _ i hfi, hv]

theorem sum_map_mul_left_q {α : Type} (l : List α) (g : α → ℚ) (c : ℚ) :
    (l.map (fun x => c * g x)).sum = c * (l.map g).sum := by
  induction l with
  | nil => simp
  | cons x xs ih => simp only [List.map_cons, List.sum_cons, ih]; ring

theorem sum_map_mul_right_q {α : Type} (l : List α) (g : α → ℚ) (c : ℚ) :
    (l.map (fun x => g x * c)).sum = (l.map g).sum * c := by
  induction l with
  | nil => simp
  | cons x xs ih => simp only [List.map_cons, List.sum_cons, ih]; ring

theorem sum_map_const_q {α : Type} (l : List α) (w : ℚ) :
    (l.map (fun _ => w)).sum = (l.length : ℚ) * w := by
  induction l with
  | nil => simp
  | cons x xs ih =>
    simp only [List.map_cons, List.sum_cons, List.length_cons, ih]
    push_cast
    ring

theorem getElem?_eq_some_vGet (l : List ℚ) (n : Nat) (h : n < l.length) :
    l[n]? = some (vGet l n) := by
  simp [vGet, List.getElem?_eq_getElem h]

/-- C10: for every fitted `RegressorEnsemble` with weights of positive sum
and every batch `X` on which each member predicts a vector of length
`len(X)`, `_predict(X)` equals the sum over members of (member prediction
times its weight) divided by the sum of all weights; multiplying every
weight by the same positive constant leaves the output unchanged; and when
all weights are equal the output is the arithmetic mean of the member
predictions. -/
theorem C10_weighted_ensemble_average (members : List RegMember)
    (X : SeriesBatch) (c w : ℚ)
    (hlen : ∀ m ∈ members, (m.pred X).length = X.length)
    (hpos : 0 < (members.map RegMember.weight).sum)
    (hc : 0 < c) :
    (∀ i, i < X.length →
      vGet (ensemblePredict members X) i
        = (members.map (fun m => vGet (m.pred X) i * m.weight)).sum
            / (members.map RegMember.weight).sum) ∧
    ensemblePredict (members.map (fun m => ⟨m.pred, c * m.weight⟩)) X
        = ensemblePredict members X ∧
    ((∀ m ∈ members, m.weight = w) → ∀ i, i < X.length →
      vGet (ensemblePredict members X) i
        = (members.map (fun m => vGet (m.pred X) i)).sum / (members.length : ℚ)) := by
  have hA : ∀ i, i < X.length →
      vGet (ensemblePredict members X) i
        = (members.map (fun m => vGet (m.pred X) i * m.weight)).sum
            / (members.map RegMember.weight).sum := by
    intro i hi
    exact ensemblePredict_vGet members X i hlen hi
  refine ⟨hA, ?_, ?_⟩
  · -- scale invariance
    set scaled := members.map (fun m => RegMember.mk m.pred (c * m.weight)) with hscaled
    have hlen2 : ∀ m ∈ scaled, (m.pred X).length = X.length := by
      intro m hm
      rw [hscaled] at hm
      simp only [List.mem_map] at hm
      obtain ⟨m0, hm0, hmeq⟩ := hm
      rw [← hmeq]
      exact hlen m0 hm0
    have hwts : scaled.map RegMember.weight
        = members.map (fun m => c * m.weight) := by
      rw [hscaled, List.map_map]
      rfl
    have hS : (scaled.map RegMember.weight).sum
        = c * (members.map RegMember.weight).sum := by
      rw [hwts]
      exact sum_map_mul_left_q members (fun m => m.weight) c
    have hlength1 := ensemblePredict_length scaled X hlen2
    have hlength2 := ensemblePredict_length members X hlen
    apply List.ext_getElem?
    intro n
    by_cases hn : n < X.length
    · rw [getElem?_eq_some_vGet _ n (by omega), getElem?_eq_some_vGet _ n (by omega)]
      congr 1
      rw [ensemblePredict_vGet scaled X n hlen2 hn,
        ensemblePredict_vGet members X n hlen hn]
      have hM : scaled.map (fun m => vGet (m.pred X) n * m.weight)
          = members.map (fun m => c * (vGet (m.pred X) n * m.weight)) := by
        rw [hscaled, List.map_map]
        congr 1
        funext m
        simp only [Function.comp_apply]
        ring
      rw [hM, hS, sum_map_mul_left_q members (fun m => vGet (m.pred X) n * m.weight) c]
      exact mul_div_mul_left _ _ (ne_of_gt hc)
    · rw [List.getElem?_eq_none (by omega), List.getElem?_eq_none (by omega)]
  · -- equal weights give the arithmetic mean
    intro hw i hi
    rw [hA i hi]
    have hwts : members.map RegMember.weight = members.map (fun _ => w) := by
      apply List.map_congr_left
      intro m hm
      exact hw m hm
    have hnum : members.map (fun m => vGet (m.pred X) i * m.weight)
        = members.map (fun m => vGet (m.pred X) i * w) := by
      apply List.map_congr_left
      intro m hm
      rw [hw m hm]
    have hsumw : (members.map RegMember.weight).sum = (members.length : ℚ) * w := by
      rw [hwts]
      exact sum_map_const_q members w
    have hsumn : (members.map (fun m => vGet (m.pred X) i * m.weight)).sum
        = (members.map (fun m => vGet (m.pred X) i)).sum * w := by
      rw [hnum]
      exact sum_map_mul_right_q members (fun m => vGet (m.pred X) i) w
    rw [hsumn, hsumw]
    have hw0 : w ≠ 0 := by
      intro h0
      rw [hsumw, h0, mul_zero] at hpos
      exact lt_irrefl 0 hpos
    exact mul_div_mul_right _ _ hw0

/-- Concrete ensemble members used by the C10 witness. -/
def wMembers : List RegMember :=
  [⟨fun X => X.map (fun _ => 2), 1⟩, ⟨fun X => X.map (fun _ => 4), 1⟩]

theorem C10_weighted_ensemble_average_witness :
    ((∀ m ∈ wMembers, (m.pred witnessBatch).length = witnessBatch.length) ∧
     0 < (wMembers.map RegMember.weight).sum ∧ (0 : ℚ) < 2) ∧
    ((∀ i, i < witnessBatch.length →
        vGet (ensemblePredict wMembers witnessBatch) i
          = (wMembers.map (fun m => vGet (m.pred witnessBatch) i * m.weight)).sum
              / (wMembers.map RegMember.weight).sum) ∧
     ensemblePredict (wMembers.map (fun m => ⟨m.pred, 2 * m.weight⟩)) witnessBatch
        = ensemblePredict wMembers witnessBatch ∧
     ((∀ m ∈ wMembers, m.weight = 1) → ∀ i, i < witnessBatch.length →
        vGet (ensemblePredict wMembers witnessBatch) i
          = (wMembers.map (fun m => vGet (m.pred witnessBatch) i)).sum
              / (wMembers.length : ℚ))) := by
  have hlen : ∀ m ∈ wMembers, (m.pred witnessBatch).length = witnessBatch.length := by
    intro m hm
    simp only [wMembers, List.mem_cons, List.not_mem_nil, or_false] at hm
    rcases hm with h | h <;> (subst h; rfl)
  have hpos : 0 < (wMembers.map RegMember.weight).sum := by
    norm_num [wMembers]
  exact ⟨⟨hlen, hpos, by norm_num⟩,
    C10_weighted_ensemble_average wMembers witnessBatch 2 1 hlen hpos (by norm_num)⟩

/-! Forest orchestration (spec §4.4, §4.5, §5): member building, parallel
batching, prediction, and predict-time shape validation. -/

/-- Modelled from the spec (§3, EnsembleMember): stored interval geometry,
attribute selection, and the opaque fitted base learner. -/
structure EnsembleMember (β : Type) where
  intervals : List IntervalSpec
  attrs : List Feature
  learner : β

/-- Modelled from the spec (§3, ForestModel): the ordered member list plus
the resolved geometry parameters used to validate predict-time inputs. -/
structure ForestModel (β : Type) where
  members : List (EnsembleMember β)
  n_channels : Nat
  n_timepoints : Nat
  fixedLength : Bool

/-- Modelled from the spec (§4.4): the member-scoped seed, derived
deterministically from the ensemble's master seed and the member index. -/
def memberSeed (master idx : Nat) : Nat := rngNext (master + idx)

/-- The per-fit configuration of one member build: the base learner's fit
capability, the attribute registry, and the resolved geometry bounds
(spec §4.4: resolved once per fit call, shared across members). -/
structure BuildConfig (β : Type) where
  fitBase : List (List ℚ) → List ℚ → β
  registry : List Feature
  nT : Nat
  nCh : Nat
  count : Nat
  minL : Nat
  maxL : Nat
  attSpec : Option AttSubsampleSize
  replaceNan : ℚ

/-- Modelled from the spec (§4.4, Ensemble Member Builder): sample
intervals, subsample attributes, extract features, fit the base learner,
package the member.  Deterministic in `(master, idx)`. -/
def buildMember {β : Type} (cfg : BuildConfig β) (X : SeriesBatch) (y : List ℚ)
    (master idx : Nat) : EnsembleMember β :=
  let s0 := memberSeed master idx
  let ivs := sampleIntervals cfg.nT cfg.nCh cfg.minL cfg.maxL cfg.count s0
  let attrs := (subsampleAttrs cfg.registry cfg.attSpec (rngNext s0)).1
  let table := extractTable cfg.replaceNan ivs attrs X
  { intervals := ivs, attrs := attrs, learner := cfg.fitBase table y }

/-- Modelled from the spec (§5): split the work-index list into batches of
`k + 1` tasks (the effective parallelism is always at least one). -/
def chunksOf {α : Type} (k : Nat) : List α → List (List α)
  | [] => []
  | x :: xs => (x :: xs.take k) :: chunksOf k (xs.drop k)
termination_by l => l.length
decreasing_by simp only [List.length_drop, List.length_cons]; omega

/-- Modelled from the spec (§6): the effective parallelism: `n_jobs = -1`
(or any non-positive value) means all available processors, otherwise
`n_jobs`; always at least 1. -/
def effectiveJobs (n_jobs : Int) (avail : Nat) : Nat :=
  if n_jobs ≤ 0 then max 1 avail else max 1 n_jobs.toNat

/-- Modelled from the spec (§4.5, Forest Orchestrator, fit with no time
budget): exactly `n_estimators` member-build tasks, dispatched in batches
of the effective parallelism, results reassembled in member-index order
regardless of completion order. -/
def fitForest {β : Type} (cfg : BuildConfig β) (X : SeriesBatch) (y : List ℚ)
    (master nEst : Nat) (n_jobs : Int) (avail : Nat) : ForestModel β :=
  { members := ((chunksOf (effectiveJobs n_jobs avail - 1) (List.range nEst)).map
      (List.map (buildMember cfg X y master))).flatten
    n_channels := cfg.nCh
    n_timepoints := cfg.nT
    fixedLength := true }

/-- Modelled from the spec (§4.5, predict): one member's predictions —
extract features with the member's stored geometry, query the fitted
learner. -/
def memberPredict {β : Type} (predictBase : β → List (List ℚ) → List ℚ)
    (replaceNan : ℚ) (m : EnsembleMember β) (X : SeriesBatch) : List ℚ :=
  predictBase m.learner (extractTable replaceNan m.intervals m.attrs X)

/-- Modelled from the spec (§4.5, predict): arithmetic mean of all members'
per-case predictions. -/
def forestPredictRaw {β : Type} (predictBase : β → List (List ℚ) → List ℚ)
    (replaceNan : ℚ) (model : ForestModel β) (X : SeriesBatch) : List ℚ :=
  ((model.members.map (fun m => memberPredict predictBase replaceNan m X)).foldl
    (List.zipWith (· + ·)) (List.replicate X.length 0)).map
      (· / (model.members.length : ℚ))

theorem chunksOf_map_flatten {α β : Type} (f : α → β) (k : Nat) :
    ∀ (n : Nat) (l : List α), l.length ≤ n →
      ((chunksOf k l).map (List.map f)).flatten = l.map f := by
  intro n
  induction n with
  | zero =>
    intro l hl
    match l with
    | [] => simp [chunksOf]
    | x :: xs => simp at hl
  | succ n ih =>
    intro l hl
    match l with
    | [] => simp [chunksOf]
    | x :: xs =>
      rw [chunksOf]
      simp only [List.map_cons, List.flatten_cons]
      have hlen2 : (xs.drop k).length ≤ n := by
        simp only [List.length_drop]
        simp only [List.length_cons] at hl
        omega
      rw [ih (xs.drop k) hlen2]
      rw [List.cons_append, ← List.map_append, List.take_append_drop]

/-- C2: for every input batch, configuration, targets and master seed, two
`fit` calls with identical inputs produce identical `ForestModel` geometry
(the model is a pure function of them) for every value of `n_jobs` and of
the available parallelism: parallel and sequential dispatch yield the same
member list, assembled in member-index order, and hence identical
predictions on any batch. -/
theorem C2_fit_deterministic_across_n_jobs {β : Type}
    (cfg : BuildConfig β) (predictBase : β → List (List ℚ) → List ℚ)
    (X Xp : SeriesBatch) (y : List ℚ) (master nEst : Nat)
    (j1 j2 : Int) (avail1 avail2 : Nat) :
    fitForest cfg X y master nEst j1 avail1
      = fitForest cfg X y master nEst j2 avail2 ∧
    forestPredictRaw predictBase cfg.replaceNan
        (fitForest cfg X y master nEst j1 avail1) Xp
      = forestPredictRaw predictBase cfg.replaceNan
        (fitForest cfg X y master nEst j2 avail2) Xp := by
  have hmembers : ∀ (j : Int) (avail : Nat),
      (fitForest cfg X y master nEst j avail).members
        = (List.range nEst).map (buildMember cfg X y master) := by
    intro j avail
    exact chunksOf_map_flatten (buildMember cfg X y master)
      (effectiveJobs j avail - 1) (List.range nEst).length (List.range nEst)
      (le_refl _)
  have heq : fitForest cfg X y master nEst j1 avail1
      = fitForest cfg X y master nEst j2 avail2 := by
    have h1 := hmembers j1 avail1
    have h2 := hmembers j2 avail2
    unfold fitForest
    congr 1
    simp only [fitForest] at h1 h2
    rw [h1, h2]
  exact ⟨heq, by rw [heq]⟩

/-- The predict-time error taxonomy relevant here (spec §7):
`ShapeMismatchError`. -/
inductive PredictError where
  | shapeMismatch
deriving Repr, DecidableEq

/-- Modelled from the spec (§4.5 predict, §7): validate the batch against
the stored `ForestModel` geometry before any computation — a wrong channel
count in any case, or (when fixed length is assumed) a wrong timepoint
count in any channel, raises `ShapeMismatchError` (modelled as
`Except.error`); no coercion of the input is performed on the error path. -/
def forestPredict {β : Type} (predictBase : β → List (List ℚ) → List ℚ)
    (replaceNan : ℚ) (model : ForestModel β) (X : SeriesBatch) :
    Except PredictError (List ℚ) :=
  if X.any (fun c => c.length ≠ model.n_channels) ||
      (model.fixedLength &&
        X.any (fun c => c.any (fun ch => ch.length ≠ model.n_timepoints))) then
    .error .shapeMismatch
  else
    .ok (forestPredictRaw predictBase replaceNan model X)

/-- C5: calling predict on a batch whose channel count (or, when fixed
length is assumed, timepoint count) differs from the geometry stored at fit
time yields `ShapeMismatchError` and no result: the `Except.error` branch
returns before any feature extraction or coercion of the input. -/
theorem C5_predict_shape_mismatch {β : Type}
    (predictBase : β → List (List ℚ) → List ℚ) (replaceNan : ℚ)
    (model : ForestModel β) (X : SeriesBatch)
    (hbad : (∃ c ∈ X, c.length ≠ model.n_channels) ∨
      (model.fixedLength = true ∧
        ∃ c ∈ X, ∃ ch ∈ c, ch.length ≠ model.n_timepoints)) :
    forestPredict predictBase replaceNan model X
      = Except.error PredictError.shapeMismatch := by
  unfold forestPredict
  rw [if_pos]
  rcases hbad with ⟨c, hc, hne⟩ | ⟨hfix, c, hc, ch, hch, hne⟩
  · apply Bool.or_eq_true_iff.mpr
    left
    rw [List.any_eq_true]
    exact ⟨c, hc, by simpa using hne⟩
  · apply Bool.or_eq_true_iff.mpr
    right
    rw [Bool.and_eq_true]
    refine ⟨hfix, ?_⟩
    rw [List.any_eq_true]
    refine ⟨c, hc, ?_⟩
    rw [List.any_eq_true]
    exact ⟨ch, hch, by simpa using hne⟩

theorem C5_predict_shape_mismatch_witness :
    ((∃ c ∈ ([[[1], [2]]] : SeriesBatch), c.length
        ≠ (ForestModel.mk ([] : List (EnsembleMember Unit)) 1 1 true).n_channels) ∨
      ((ForestModel.mk ([] : List (EnsembleMember Unit)) 1 1 true).fixedLength = true ∧
        ∃ c ∈ ([[[1], [2]]] : SeriesBatch), ∃ ch ∈ c, ch.length
          ≠ (ForestModel.mk ([] : List (EnsembleMember Unit)) 1 1 true).n_timepoints)) ∧
    forestPredict (fun _ _ => []) 0
        (ForestModel.mk ([] : List (EnsembleMember Unit)) 1 1 true) [[[1], [2]]]
      = Except.error PredictError.shapeMismatch := by
  have hbad : (∃ c ∈ ([[[1], [2]]] : SeriesBatch), c.length
      ≠ (ForestModel.mk ([] : List (EnsembleMember Unit)) 1 1 true).n_channels) ∨
      ((ForestModel.mk ([] : List (EnsembleMember Unit)) 1 1 true).fixedLength = true ∧
        ∃ c ∈ ([[[1], [2]]] : SeriesBatch), ∃ ch ∈ c, ch.length
          ≠ (ForestModel.mk ([] : List (EnsembleMember Unit)) 1 1 true).n_timepoints) := by
    left
    exact ⟨[[1], [2]], by simp, by simp⟩
  exact ⟨hbad, C5_predict_shape_mismatch (fun _ _ => []) 0
    (ForestModel.mk ([] : List (EnsembleMember Unit)) 1 1 true) [[[1], [2]]] hbad⟩

/-! Time-budget contracting (spec §4.5, §5).  Wall-clock time is abstracted
as an oracle giving each batch's build duration. -/

/-- Modelled from the spec (§4.5, time-budget contracting): build one batch
per iteration (batch size = the effective parallelism, capped by the
remaining member budget `M - built`, and at least one), add the batch's
duration to the elapsed time, and stop once the elapsed time meets the
budget `T` or `M` members exist.  The fuel argument bounds the iteration
count; every iteration builds at least one member, so fuel `M` is never
exhausted before the count cap fires and the function equals the unbounded
loop. -/
def contractLoop (dur : Nat → Nat) (T batchSize M : Nat) :
    Nat → Nat → Nat → Nat → Nat × Nat
  | 0, _, built, elapsed => (built, elapsed)
  | fuel + 1, i, built, elapsed =>
    if M ≤ built then (built, elapsed)
    else
      let b := min (max 1 batchSize) (M - built)
      let elapsed2 := elapsed + dur i
      if T ≤ elapsed2 then (built + b, elapsed2)
      else contractLoop dur T batchSize M fuel (i + 1) (built + b) elapsed2

/-- Modelled from the spec (§4.5): the contracted fit loop, started with no
members built and zero elapsed time, with fuel `M`. -/
def contractFit (dur : Nat → Nat) (T batchSize M : Nat) : Nat × Nat :=
  contractLoop dur T batchSize M M 0 0 0

theorem contractLoop_spec (dur : Nat → Nat) (T batchSize M B : Nat)
    (hB : ∀ i, dur i ≤ B) :
    ∀ (fuel i built elapsed : Nat), built ≤ M → (elapsed = 0 ∨ elapsed < T) →
      built ≤ (contractLoop dur T batchSize M fuel i built elapsed).1 ∧
      (contractLoop dur T batchSize M fuel i built elapsed).1 ≤ M ∧
      (contractLoop dur T batchSize M fuel i built elapsed).2 ≤ T + B ∧
      (built < M → 0 < fuel →
        built < (contractLoop dur T batchSize M fuel i built elapsed).1) := by
  intro fuel
  induction fuel with
  | zero =>
    intro i built elapsed hbM hel
    simp only [contractLoop]
    refine ⟨le_refl _, hbM, ?_, fun _ h0 => absurd h0 (by omega)⟩
    rcases hel with h | h <;> omega
  | succ fuel ih =>
    intro i built elapsed hbM hel
    rw [contractLoop]
    by_cases hstop : M ≤ built
    · rw [if_pos hstop]
      refine ⟨le_refl _, hbM, ?_, fun hlt _ => absurd hlt (by omega)⟩
      rcases hel with h | h <;> omega
    · rw [if_neg hstop]
      have hdur := hB i
      have hb1 : 1 ≤ min (max 1 batchSize) (M - built) := by
        have h1 : 1 ≤ max 1 batchSize := le_max_left 1 batchSize
        have h2 : 1 ≤ M - built := by omega
        omega
      by_cases htime : T ≤ elapsed + dur i
      · rw [if_pos htime]
        refine ⟨by omega, by omega, ?_, fun _ _ => by omega⟩
        rcases hel with h | h <;> omega
      · rw [if_neg htime]
        have hrec := ih (i + 1) (built + min (max 1 batchSize) (M - built))
          (elapsed + dur i) (by omega) (Or.inr (by omega))
        refine ⟨by omega, hrec.2.1, hrec.2.2.1, fun _ _ => by omega⟩

/-- C4: with a time budget `T` set, `contract_max_n_estimators = M ≥ 1`,
and every batch's build duration bounded by `B`, the contracted loop builds
at most `M` and at least 1 ensemble member (even when `T` is smaller than
one batch's build time), and — since the budget is checked only at batch
boundaries — the total build time exceeds `T` by at most one batch's
duration: it is at most `T + B`. -/
theorem C4_contract_bounds (dur : Nat → Nat) (T batchSize M B : Nat)
    (hM : 1 ≤ M) (hB : ∀ i, dur i ≤ B) :
    1 ≤ (contractFit dur T batchSize M).1 ∧
    (contractFit dur T batchSize M).1 ≤ M ∧
    (contractFit dur T batchSize M).2 ≤ T + B := by
  have h := contractLoop_spec dur T batchSize M B hB M 0 0 0 (by omega)
    (Or.inl rfl)
  exact ⟨h.2.2.2 (by omega) (by omega), h.2.1, h.2.2.1⟩

theorem C4_contract_bounds_witness :
    (1 ≤ 4 ∧ ∀ i : Nat, (fun _ => 5) i ≤ 5) ∧
    (1 ≤ (contractFit (fun _ => 5) 3 2 4).1 ∧
     (contractFit (fun _ => 5) 3 2 4).1 ≤ 4 ∧
     (contractFit (fun _ => 5) 3 2 4).2 ≤ 3 + 5) :=
  ⟨⟨by decide, fun i => le_refl 5⟩,
    C4_contract_bounds (fun _ => 5) 3 2 4 5 (by decide) (fun i => le_refl 5)⟩

end Aeon


